import Mathlib

/-!
# Verification of the scribe audio-transcription pipeline

Shallow embedding of the Rust sources (`transcribe.rs`, `chunker.rs`,
`mixer.rs`, `pipeline.rs`) of the scribe repository, together with proofs
about the embedded operations.

Modelling conventions:
* `f64`/`f32` values are modelled as exact rationals (`ℚ`); the claims under
  study concern control flow, ordering and exact thresholds, not rounding.
  NaN behaviour is studied separately with an `Option ℚ` float model where
  `none` plays the role of NaN.
* Vectors are Lean lists, in-place mutation becomes value passing.
* I/O boundaries (the HTTP backend, WAV decoding) are modelled as explicit
  inputs to the embedded functions.
-/

namespace Scribe

/-- A timed word of a transcript (`Word` in `transcribe.rs`). -/
structure Word where
  word : String
  start : ℚ
  «end» : ℚ
deriving Repr, DecidableEq

/-- A transcript segment (`Segment` in `transcribe.rs`). -/
structure Segment where
  start : ℚ
  «end» : ℚ
  text : String
  words : List Word
deriving Repr, DecidableEq

/-- A backend transcript (`Transcript` in `transcribe.rs`). -/
structure Transcript where
  text : String
  segments : List Segment
  words : List Word
  duration : ℚ
deriving Repr, DecidableEq

/-- A speaker-labelled segment (`SpeakerSegment` in `transcribe.rs`). -/
structure SpeakerSegment where
  speaker : String
  start : ℚ
  «end» : ℚ
  text : String
  words : List Word
deriving Repr, DecidableEq

/-- The merged two-speaker transcript (`MergedTranscript` in `transcribe.rs`). -/
structure MergedTranscript where
  segments : List SpeakerSegment
  duration : ℚ
deriving Repr, DecidableEq

/-- Embeds `normalize_word` from `transcribe.rs`: trim, lowercase, keep only
alphanumeric characters.  (Lean's `Char.toLower`/`Char.isAlphanum` are the
ASCII fragment of the Unicode functions used by the source; they agree on
the ASCII inputs considered here.) -/
def normalize_word (w : String) : String :=
  (w.trim.toLower.toList.filter Char.isAlphanum).asString

/-- One entry of the `matches` vector computed by `dedup_bleed`
(`transcribe.rs` lines 154–163): a mic word matches if its normalized form
is non-empty and some system word has the same normalized form and a start
time within `TIME_TOLERANCE = 1.0` seconds. -/
def wordMatches (systemWords : List Word) (mw : Word) : Bool :=
  let norm := normalize_word mw.word
  if norm.isEmpty then false
  else systemWords.any fun sw =>
    normalize_word sw.word == norm && decide (|mw.start - sw.start| < 1)

/-- Length of the leading run of `true`s of a boolean list. -/
def leadRun : List Bool → Nat
  | true :: rest => leadRun rest + 1
  | _ => 0

/-- The `to_remove` vector of `dedup_bleed` (`transcribe.rs` lines 166–182):
scan for maximal runs of consecutive `true`s in the match vector and mark
every position of a run of length ≥ `MIN_RUN = 3`. -/
def markRuns (l : List Bool) : List Bool :=
  match l with
  | [] => []
  | false :: rest => false :: markRuns rest
  | true :: rest =>
    let n := leadRun rest + 1
    List.replicate n (decide (3 ≤ n)) ++ markRuns (rest.drop (leadRun rest))
termination_by l.length
decreasing_by
  all_goals simp [List.length_drop]
  all_goals omega

/-- Models `Vec::retain` driven by a positional boolean mask: keep the elements whose
mask entry is `false` (`transcribe.rs` lines 186–194). -/
def filterByMask {α : Type} (ws : List α) (mask : List Bool) : List α :=
  ((ws.zip mask).filter fun p => !p.2).map Prod.fst

/-- The `(start, end)` pairs of the removed words, in traversal order
(`removed_times` in `transcribe.rs` lines 185–194). -/
def removedTimesOf (ws : List Word) (mask : List Bool) : List (ℚ × ℚ) :=
  ((ws.zip mask).filter fun p => p.2).map fun p => (p.1.start, p.1.«end»)

/-- Segment rebuilding step of `dedup_bleed` (`transcribe.rs` lines 197–220):
if the removed words cover more than 80% of a positive-duration segment the
text is cleared, otherwise the text is rebuilt by space-joining the trimmed
remaining words whose times fall inside the segment. -/
def rebuildSegment (removed_times : List (ℚ × ℚ)) (keptWords : List Word)
    (seg : Segment) : Segment :=
  let bleed_coverage : ℚ :=
    ((removed_times.filter fun p =>
        decide (seg.start ≤ p.1) && decide (p.2 ≤ seg.«end»)).map
      fun p => p.2 - p.1).sum
  let seg_duration := seg.«end» - seg.start
  if 0 < seg_duration ∧ (0.8 : ℚ) < bleed_coverage / seg_duration then
    { seg with text := "" }
  else
    let remaining := (keptWords.filter fun w =>
        decide (seg.start ≤ w.start) && decide (w.«end» ≤ seg.«end»)).map
      fun w => w.word.trim
    if remaining.isEmpty then { seg with text := "" }
    else { seg with text := String.intercalate " " remaining }

/-- The match vector of `dedup_bleed` for a pair of transcripts. -/
def matchMask (system mic : Transcript) : List Bool :=
  mic.words.map (wordMatches system.words)

/-- Embeds `dedup_bleed` from `transcribe.rs` (lines 145–223), as a function from the
input mic transcript to the updated one. -/
def dedup_bleed (system mic : Transcript) : Transcript :=
  if system.words.isEmpty || mic.words.isEmpty then mic
  else
    let to_remove := markRuns (matchMask system mic)
    let kept := filterByMask mic.words to_remove
    let removed_times := removedTimesOf mic.words to_remove
    let segs := (mic.segments.map (rebuildSegment removed_times kept)).filter
      fun s => !s.text.isEmpty
    { mic with words := kept, segments := segs }

/-- The `to_speaker_segments` closure of `merge_transcripts`
(`transcribe.rs` lines 230–249): label each segment and attach the words
whose times fall inside it. -/
def to_speaker_segments (t : Transcript) (speaker : String) :
    List SpeakerSegment :=
  t.segments.map fun seg =>
    { speaker := speaker
      start := seg.start
      «end» := seg.«end»
      text := seg.text
      words := t.words.filter fun w =>
        decide (seg.start ≤ w.start) && decide (w.«end» ≤ seg.«end») }

/-- The comparison used by `merge_transcripts`' `sort_by`: order speaker
segments by start time. -/
def segLE (a b : SpeakerSegment) : Prop := a.start ≤ b.start

instance : DecidableRel segLE := fun a b =>
  inferInstanceAs (Decidable (a.start ≤ b.start))

instance : IsTotal SpeakerSegment segLE := ⟨fun a b => le_total a.start b.start⟩

instance : IsTrans SpeakerSegment segLE := ⟨fun _ _ _ h1 h2 => le_trans h1 h2⟩

/-- The segment list of `merge_transcripts` just before sorting: system
segments (speaker `"other"`) followed by the bleed-dedup'ed mic segments
(speaker `"you"`), `transcribe.rs` lines 251–263. -/
def merge_pre (system mic : Option Transcript) : List SpeakerSegment :=
  let mic' := match system, mic with
    | some sys, some m => some (dedup_bleed sys m)
    | _, m => m
  ((system.map fun t => to_speaker_segments t "other").getD []) ++
    ((mic'.map fun t => to_speaker_segments t "you").getD [])

/-- Embeds `merge_transcripts` from `transcribe.rs` (lines 225–267).  Rust's
`Vec::sort_by` is a stable comparison sort; a stable sort is extensionally
determined by its comparator, so it is modelled by insertion sort (which is
stable). -/
def merge_transcripts (system mic : Option Transcript) : MergedTranscript :=
  let sys_dur := (system.map Transcript.duration).getD 0
  let mic_dur := (mic.map Transcript.duration).getD 0
  { segments := List.insertionSort segLE (merge_pre system mic)
    duration := max sys_dur mic_dur }

/-! ## The transcription HTTP retry loop (`transcribe.rs` lines 65–132)

The network is abstracted as a function `send : Nat → HttpResponse` giving
the backend's response to the `n`-th POST (0-based).  The loop's observable
behaviour is returned as a trace of POST and backoff-sleep events together
with the outcome.  The body of the success branch (JSON parsing and word
flattening) is outside the fragment under study and is represented by the
bare `success` outcome. -/

/-- An HTTP response: status code and body text. -/
structure HttpResponse where
  status : Nat
  body : String
deriving Repr, DecidableEq

/-- Observable events of the retry loop: a POST request, or a backoff sleep
of the given number of seconds. -/
inductive TEvent where
  | post
  | sleep (secs : Nat)
deriving Repr, DecidableEq

/-- Outcome of the `transcribe` call. -/
inductive TOutcome where
  | success
  | apiError (status : Nat) (body : String)
deriving Repr, DecidableEq

/-- Status test `reqwest::StatusCode::is_success`: 2xx. -/
def statusIsSuccess (s : Nat) : Bool := 200 ≤ s && s ≤ 299

/-- Status test `reqwest::StatusCode::is_server_error`: 5xx. -/
def statusIsServerError (s : Nat) : Bool := 500 ≤ s && s ≤ 599

/-- The constant `max_retries = 3` of `transcribe`. -/
def max_retries : Nat := 3

/-- The `loop` of `transcribe` starting with counter value `attempt`.
Each iteration POSTs, then on a non-success response increments the counter;
a non-retryable status or an exhausted budget aborts with
`API error {status}: {body}`, otherwise the loop sleeps `1 << attempt`
(= `2 ^ attempt`) seconds and retries. -/
def transcribeLoop (send : Nat → HttpResponse) (attempt : Nat) :
    List TEvent × TOutcome :=
  let resp := send attempt
  if statusIsSuccess resp.status then
    ([TEvent.post], TOutcome.success)
  else
    let retryable := resp.status == 429 || statusIsServerError resp.status
    if !retryable || decide (max_retries ≤ attempt + 1) then
      ([TEvent.post], TOutcome.apiError resp.status resp.body)
    else
      let rest := transcribeLoop send (attempt + 1)
      (TEvent.post :: TEvent.sleep (2 ^ (attempt + 1)) :: rest.1, rest.2)
termination_by max_retries - attempt
decreasing_by
  simp only [Bool.not_eq_true, Bool.or_eq_false_iff, decide_eq_false_iff_not,
    max_retries] at *
  omega

/-- Embeds `transcribe` from `transcribe.rs`, restricted to its retry loop (the
counter starts at 0). -/
def transcribe (send : Nat → HttpResponse) : List TEvent × TOutcome :=
  transcribeLoop send 0

/-! ## Mixer (`mixer.rs`) -/

/-- Rust's `as i16` cast of an in-range float value: round toward zero. -/
def truncQ (q : ℚ) : ℤ := if 0 ≤ q then ⌊q⌋ else ⌈q⌉

/-- Embeds `f32_to_i16` from `mixer.rs` (lines 80–85): clamp each sample to
`[-1.0, 1.0]`, multiply by 32767 and cast to `i16`.  Rust's
`f32::clamp(min, max)` is `min(max(s, min), max)`. -/
def f32_to_i16 (samples : List ℚ) : List ℤ :=
  samples.map fun s => truncQ (min (max s (-1)) 1 * 32767)

/-- The peak scan of `peak_normalize`:
`samples.iter().map(|s| s.abs()).fold(0.0, f32::max)`. -/
def peakOf (samples : List ℚ) : ℚ := (samples.map fun s => |s|).foldl max 0

/-- Embeds `peak_normalize` from `mixer.rs` (lines 60–68): if the peak absolute
amplitude is positive, scale every sample by `target / peak`; otherwise
return the buffer unchanged. -/
def peak_normalize (samples : List ℚ) (target : ℚ) : List ℚ :=
  let peak := peakOf samples
  if 0 < peak then samples.map fun s => s * (target / peak) else samples

/-! ## Chunker overlap retention (`chunker.rs`) -/

/-- The clamp `config.overlap.min(config.chunk_duration.saturating_sub(1))`
(`chunker.rs` line 140); Nat subtraction is saturating. -/
def clampedOverlap (overlap chunk_duration : Nat) : Nat :=
  min overlap (chunk_duration - 1)

/-- The quantity `overlap_samples = overlap × rate × channels` with the clamped overlap
(`chunker.rs` lines 143–144). -/
def overlapSamples (overlap chunk_duration rate channels : Nat) : Nat :=
  clampedOverlap overlap chunk_duration * rate * channels

/-- The post-flush buffer retention (`chunker.rs` lines 182–188):
`buf.drain(..buf.len().saturating_sub(overlap_samples))`, i.e. drop the
leading part of the buffer and keep the trailing `overlap_samples` samples
(the whole buffer when it is shorter). -/
def retainOverlap (buf : List ℚ) (overlap_samples : Nat) : List ℚ :=
  buf.drop (buf.length - overlap_samples)

/-! ## Silence detection (`pipeline.rs` lines 85–107)

The WAV file is abstracted as `Option (List ℤ)`: `none` models a file that
cannot be opened, `some l` the i16 samples that decode successfully. -/

/-- Sum of squares of the samples normalized by `i16::MAX = 32767`. -/
def sumSq (samples : List ℤ) : ℚ :=
  (samples.map fun (s : ℤ) => ((s : ℚ) / 32767) * ((s : ℚ) / 32767)).sum

/-- Embeds `is_silent` from `pipeline.rs`.  The source computes
`rms = sqrt(sum_sq / count)` and returns `rms < 0.01` (with `count == 0`
short-circuiting to `true` and open failure to `false`).  Both sides of the
comparison are nonnegative, so `sqrt(x) < 0.01 ↔ x < 0.0001`; the embedding
uses the squared form to stay in `ℚ`, and `is_silent_rms_iff` below proves
the equivalence with the square-root form. -/
def is_silent (samples : Option (List ℤ)) : Bool :=
  match samples with
  | none => false
  | some l =>
    if l.length = 0 then true
    else decide (sumSq l / (l.length : ℚ) < (0.0001 : ℚ))

/-! ## NaN-aware float model and `merge_transcripts`' sort panic

`merge_transcripts` sorts with
`a.start.partial_cmp(&b.start).unwrap()` (`transcribe.rs` line 264), which
panics when a compared start is NaN.  To study this the relevant fragment is
re-embedded over `F := Option ℚ`, `none` playing the role of NaN: every
comparison involving NaN is `false`, NaN propagates through arithmetic, and
`partial_cmp` yields `none`.  A panic is modelled as `Except.error ()`. -/

/-- An `f64`: `none` is NaN, `some q` a finite numeric value. -/
abbrev F := Option ℚ

/-- Subtraction: NaN propagates. -/
def fsub : F → F → F
  | some a, some b => some (a - b)
  | _, _ => none

/-- Addition: NaN propagates. -/
def fadd : F → F → F
  | some a, some b => some (a + b)
  | _, _ => none

/-- Absolute value `f64::abs`: NaN propagates. -/
def fabs : F → F := Option.map (fun q => |q|)

/-- Comparison `<` on `f64`: any comparison with NaN is `false`. -/
def flt : F → F → Bool
  | some a, some b => decide (a < b)
  | _, _ => false

/-- Comparison `≤` on `f64`: any comparison with NaN is `false`. -/
def fle : F → F → Bool
  | some a, some b => decide (a ≤ b)
  | _, _ => false

/-- Maximum `f64::max`: returns the other operand when one is NaN. -/
def fmax : F → F → F
  | some a, some b => some (max a b)
  | some a, none => some a
  | none, b => b

/-- Division.  In `dedup_bleed` the denominator is guarded to be positive,
so only nonzero denominators are reachable there; the unreachable zero case
is mapped to NaN. -/
def fdiv : F → F → F
  | some a, some b => if b = 0 then none else some (a / b)
  | _, _ => none

/-- Sum of a list of `f64`s: NaN propagates. -/
def fsum (l : List F) : F := l.foldl fadd (some 0)

/-- Comparison `PartialOrd::partial_cmp` on `f64`: `none` when either side is NaN. -/
def fcmp : F → F → Option Ordering
  | some a, some b => some (compare a b)
  | _, _ => none

/-- Structure `Word` with NaN-aware times. -/
structure WordF where
  word : String
  start : F
  «end» : F
deriving Repr, DecidableEq

/-- Structure `Segment` with NaN-aware times. -/
structure SegmentF where
  start : F
  «end» : F
  text : String
  words : List WordF
deriving Repr, DecidableEq

/-- Structure `Transcript` with NaN-aware times. -/
structure TranscriptF where
  text : String
  segments : List SegmentF
  words : List WordF
  duration : F
deriving Repr, DecidableEq

/-- Structure `SpeakerSegment` with NaN-aware times. -/
structure SpeakerSegmentF where
  speaker : String
  start : F
  «end» : F
  text : String
  words : List WordF
deriving Repr, DecidableEq

/-- Structure `MergedTranscript` with NaN-aware times. -/
structure MergedTranscriptF where
  segments : List SpeakerSegmentF
  duration : F
deriving Repr, DecidableEq

/-- Version of `wordMatches` over the NaN-aware model
(`(mw.start - sw.start).abs() < TIME_TOLERANCE` is `false` when NaN). -/
def wordMatchesF (systemWords : List WordF) (mw : WordF) : Bool :=
  let norm := normalize_word mw.word
  if norm.isEmpty then false
  else systemWords.any fun sw =>
    normalize_word sw.word == norm &&
      flt (fabs (fsub mw.start sw.start)) (some 1)

/-- Version of `removed_times` over the NaN-aware model. -/
def removedTimesOfF (ws : List WordF) (mask : List Bool) : List (F × F) :=
  ((ws.zip mask).filter fun p => p.2).map fun p => (p.1.start, p.1.«end»)

/-- Version of `rebuildSegment` over the NaN-aware model.  Note the text is the only
field changed: the segment's `start` is preserved exactly. -/
def rebuildSegmentF (removed_times : List (F × F)) (keptWords : List WordF)
    (seg : SegmentF) : SegmentF :=
  let bleed_coverage : F :=
    fsum ((removed_times.filter fun p =>
        fle seg.start p.1 && fle p.2 seg.«end»).map
      fun p => fsub p.2 p.1)
  let seg_duration := fsub seg.«end» seg.start
  if flt (some 0) seg_duration &&
      flt (some (0.8 : ℚ)) (fdiv bleed_coverage seg_duration) then
    { seg with text := "" }
  else
    let remaining := (keptWords.filter fun w =>
        fle seg.start w.start && fle w.«end» seg.«end»).map
      fun w => w.word.trim
    if remaining.isEmpty then { seg with text := "" }
    else { seg with text := String.intercalate " " remaining }

/-- Version of `dedup_bleed` over the NaN-aware model. -/
def dedup_bleedF (system mic : TranscriptF) : TranscriptF :=
  if system.words.isEmpty || mic.words.isEmpty then mic
  else
    let to_remove := markRuns (mic.words.map (wordMatchesF system.words))
    let kept := filterByMask mic.words to_remove
    let removed_times := removedTimesOfF mic.words to_remove
    let segs := (mic.segments.map (rebuildSegmentF removed_times kept)).filter
      fun s => !s.text.isEmpty
    { mic with words := kept, segments := segs }

/-- Version of `to_speaker_segments` over the NaN-aware model. -/
def to_speaker_segmentsF (t : TranscriptF) (speaker : String) :
    List SpeakerSegmentF :=
  t.segments.map fun seg =>
    { speaker := speaker
      start := seg.start
      «end» := seg.«end»
      text := seg.text
      words := t.words.filter fun w =>
        fle seg.start w.start && fle w.«end» seg.«end» }

/-- The comparator of `sort_by`:
`a.start.partial_cmp(&b.start).unwrap()`.  The `unwrap` of `None` — a NaN
on either side — is the modelled panic. -/
def cmpSegF (a b : SpeakerSegmentF) : Except Unit Ordering :=
  match fcmp a.start b.start with
  | some o => Except.ok o
  | none => Except.error ()

/-- Stable insertion of `a` into `l` using the fallible comparator: `a` goes
before the first element that is not strictly smaller.  An error of any
consulted comparison aborts the sort, as the panic does. -/
def orderedInsertF (a : SpeakerSegmentF) :
    List SpeakerSegmentF → Except Unit (List SpeakerSegmentF)
  | [] => Except.ok [a]
  | b :: l =>
    match cmpSegF a b with
    | Except.error e => Except.error e
    | Except.ok Ordering.gt =>
      match orderedInsertF a l with
      | Except.error e => Except.error e
      | Except.ok t => Except.ok (b :: t)
    | Except.ok _ => Except.ok (a :: b :: l)

/-- Stable sort with the fallible comparator (models `Vec::sort_by` with the
panicking comparator: succeeds iff every consulted comparison does). -/
def insertionSortF :
    List SpeakerSegmentF → Except Unit (List SpeakerSegmentF)
  | [] => Except.ok []
  | b :: l =>
    match insertionSortF l with
    | Except.error e => Except.error e
    | Except.ok s => orderedInsertF b s

/-- The pre-sort segment list of the NaN-aware merge. -/
def merge_preF (system mic : Option TranscriptF) : List SpeakerSegmentF :=
  let mic' := match system, mic with
    | some sys, some m => some (dedup_bleedF sys m)
    | _, m => m
  ((system.map fun t => to_speaker_segmentsF t "other").getD []) ++
    ((mic'.map fun t => to_speaker_segmentsF t "you").getD [])

/-- Version of `merge_transcripts` over the NaN-aware model; `Except.error ()` models
the comparator panic inside `sort_by`. -/
def merge_transcriptsF (system mic : Option TranscriptF) :
    Except Unit MergedTranscriptF :=
  let sys_dur := (system.map TranscriptF.duration).getD (some 0)
  let mic_dur := (mic.map TranscriptF.duration).getD (some 0)
  match insertionSortF (merge_preF system mic) with
  | Except.error e => Except.error e
  | Except.ok segs =>
    Except.ok { segments := segs, duration := fmax sys_dur mic_dur }

/-! ## Claim-side predicates and concrete inputs -/

/-- The `j`-th entry of a boolean list, `false` out of range. -/
def bit (l : List Bool) (j : Nat) : Bool := l.getD j false

/-- Position `i` belongs to a maximal run of at least 3 consecutive `true`
entries of `m`: there is a window `[a, b)` containing `i`, of length ≥ 3,
all of whose entries are `true`, that cannot be extended on either side. -/
def inMaxRun3 (m : List Bool) (i : Nat) : Prop :=
  ∃ a b, a ≤ i ∧ i < b ∧ b ≤ m.length ∧ 3 ≤ b - a ∧
    (∀ j, a ≤ j → j < b → bit m j = true) ∧
    (a = 0 ∨ bit m (a - 1) = false) ∧
    (b = m.length ∨ bit m b = false)

/-- A system transcript with no word timings (concrete test input). -/
def sysNoWords : Transcript :=
  { text := "hello world"
    segments := [{ start := 0, «end» := 2, text := "hello world", words := [] }]
    words := []
    duration := 2 }

/-- A mic transcript textually identical to `sysNoWords` but with word
timings (concrete test input). -/
def micEcho : Transcript :=
  { text := "hello world"
    segments := [{ start := 0, «end» := 2, text := "hello world", words := [] }]
    words := [{ word := "hello", start := 0, «end» := 1 },
              { word := "world", start := 1, «end» := 2 }]
    duration := 2 }

/-- A system transcript containing a NaN segment start (concrete test
input for the NaN model). -/
def nanSys : TranscriptF :=
  { text := ""
    segments := [{ start := none, «end» := some 1, text := "a", words := [] },
                 { start := some 0, «end» := some 1, text := "b", words := [] }]
    words := []
    duration := some 1 }

/-- A NaN-free transcript for the NaN model (concrete test input). -/
def okSys : TranscriptF :=
  { text := ""
    segments := [{ start := some 2, «end» := some 3, text := "a", words := [] },
                 { start := some 0, «end» := some 1, text := "b", words := [] }]
    words := []
    duration := some 3 }

/-- A system transcript whose three words bleed into the mic channel
(concrete test input). -/
def sysBleed : Transcript :=
  { text := "foo bar baz"
    segments := [{ start := 0, «end» := 3, text := "foo bar baz", words := [] }]
    words := [{ word := "foo", start := 0, «end» := 1 },
              { word := "bar", start := 1, «end» := 2 },
              { word := "baz", start := 2, «end» := 3 }]
    duration := 3 }

/-- A mic transcript consisting purely of bleed from `sysBleed`
(concrete test input). -/
def micBleed : Transcript :=
  { text := "foo bar baz"
    segments := [{ start := 0, «end» := 3, text := "foo bar baz", words := [] }]
    words := [{ word := "foo", start := 1 / 10, «end» := 9 / 10 },
              { word := "bar", start := 11 / 10, «end» := 19 / 10 },
              { word := "baz", start := 21 / 10, «end» := 29 / 10 }]
    duration := 3 }

/-- A backend that always answers HTTP 500 (concrete test input). -/
def sendAlways500 : Nat → HttpResponse := fun _ =>
  { status := 500, body := "server error" }

/-- A backend that always answers HTTP 404 (concrete test input). -/
def send404 : Nat → HttpResponse := fun _ =>
  { status := 404, body := "not found" }

/-! # Theorems -/

/-! ## C2: transcription retry policy -/

/-- One aborting step of the retry loop: a non-success response that is
non-retryable, or an exhausted attempt budget, fails with the status and
body after this single POST. -/
theorem transcribeLoop_abort (send : Nat → HttpResponse) (a : Nat)
    (hfail : statusIsSuccess (send a).status = false)
    (habort : ((send a).status == 429 || statusIsServerError (send a).status)
        = false
      ∨ max_retries ≤ a + 1) :
    transcribeLoop send a
      = ([TEvent.post], TOutcome.apiError (send a).status (send a).body) := by
  conv_lhs => rw [transcribeLoop]
  rcases habort with h | h
  · simp [hfail, h]
  · simp [hfail, h]

/-- One retrying step of the loop: a retryable failure with budget left
POSTs, sleeps `2 ^ (a + 1)` seconds and continues. -/
theorem transcribeLoop_retry (send : Nat → HttpResponse) (a : Nat)
    (hfail : statusIsSuccess (send a).status = false)
    (hretry : ((send a).status == 429 || statusIsServerError (send a).status)
        = true)
    (hlt : a + 1 < max_retries) :
    transcribeLoop send a
      = (TEvent.post :: TEvent.sleep (2 ^ (a + 1))
          :: (transcribeLoop send (a + 1)).1,
        (transcribeLoop send (a + 1)).2) := by
  conv_lhs => rw [transcribeLoop]
  simp [hfail, hretry, Nat.not_le.mpr hlt]

/-- C2: against a backend that always answers 429/5xx, `transcribe` makes
exactly 3 POSTs with sleeps of 2 s and 4 s between them and then fails with
the last status and body; against a backend whose first answer is a
non-retryable non-2xx status it fails after a single POST with no sleep. -/
theorem transcribe_retry_policy (send5 sendNR : Nat → HttpResponse)
    (h5 : ∀ n, (send5 n).status = 429
      ∨ (500 ≤ (send5 n).status ∧ (send5 n).status ≤ 599))
    (hNRfail : statusIsSuccess (sendNR 0).status = false)
    (hNR : ((sendNR 0).status == 429 || statusIsServerError (sendNR 0).status)
      = false) :
    transcribe send5
      = ([TEvent.post, TEvent.sleep 2, TEvent.post, TEvent.sleep 4,
          TEvent.post],
        TOutcome.apiError (send5 2).status (send5 2).body)
    ∧ transcribe sendNR
      = ([TEvent.post],
        TOutcome.apiError (sendNR 0).status (sendNR 0).body) := by
  have hfail5 : ∀ n, statusIsSuccess (send5 n).status = false := by
    intro n
    rcases h5 n with h | h <;> simp [statusIsSuccess] <;> omega
  have hretry5 : ∀ n,
      ((send5 n).status == 429 || statusIsServerError (send5 n).status)
        = true := by
    intro n
    rcases h5 n with h | h
    · simp [h]
    · simp [statusIsServerError]
      omega
  constructor
  · unfold transcribe
    rw [transcribeLoop_retry send5 0 (hfail5 0) (hretry5 0)
      (by norm_num [max_retries])]
    rw [transcribeLoop_retry send5 1 (hfail5 1) (hretry5 1)
      (by norm_num [max_retries])]
    rw [transcribeLoop_abort send5 2 (hfail5 2)
      (Or.inr (by norm_num [max_retries]))]
    norm_num
  · unfold transcribe
    exact transcribeLoop_abort sendNR 0 hNRfail (Or.inl hNR)

/-- Witness for C2: the always-500 backend yields the 3-POST trace with
2 s and 4 s sleeps; the constant-404 backend fails after one POST. -/
theorem transcribe_retry_policy_witness :
    ((∀ n, (sendAlways500 n).status = 429
        ∨ (500 ≤ (sendAlways500 n).status ∧ (sendAlways500 n).status ≤ 599))
      ∧ statusIsSuccess (send404 0).status = false
      ∧ ((send404 0).status == 429 || statusIsServerError (send404 0).status)
          = false)
    ∧ (transcribe sendAlways500
        = ([TEvent.post, TEvent.sleep 2, TEvent.post, TEvent.sleep 4,
            TEvent.post],
          TOutcome.apiError 500 "server error")
      ∧ transcribe send404
        = ([TEvent.post], TOutcome.apiError 404 "not found")) :=
  ⟨⟨fun _ => Or.inr (by norm_num [sendAlways500]), by decide, by decide⟩,
    transcribe_retry_policy sendAlways500 send404
      (fun _ => Or.inr (by norm_num [sendAlways500])) (by decide) (by decide)⟩

/-! ## C6: silence detector -/

/-- A sum of squares is nonnegative. -/
theorem sumSq_nonneg (l : List ℤ) : 0 ≤ sumSq l := by
  apply List.sum_nonneg
  intro x hx
  simp only [List.mem_map] at hx
  obtain ⟨s, -, rfl⟩ := hx
  exact mul_self_nonneg _

/-- Sum of squares of a constant buffer. -/
theorem sumSq_replicate (n : Nat) (c : ℤ) :
    sumSq (List.replicate n c)
      = n * (((c : ℚ) / 32767) * ((c : ℚ) / 32767)) := by
  unfold sumSq
  rw [List.map_replicate, List.sum_replicate, nsmul_eq_mul]

/-- Evaluating `is_silent` on a constant nonempty buffer compares the square of the
single normalized sample against the squared threshold. -/
theorem is_silent_replicate (n : Nat) (c : ℤ) (hn : n ≠ 0) :
    is_silent (some (List.replicate n c))
      = decide ((c : ℚ) / 32767 * ((c : ℚ) / 32767) < (0.0001 : ℚ)) := by
  have hn0 : ((n : ℚ)) ≠ 0 := Nat.cast_ne_zero.mpr hn
  simp only [is_silent, List.length_replicate, hn, if_false, sumSq_replicate]
  congr 1
  rw [mul_comm, mul_div_assoc, div_self hn0, mul_one]

/-- C6: the detector reports silence exactly when the root-mean-square of
the normalized samples is strictly below 0.01 or no sample decoded; an
unopenable file reports non-silence; an all-zero buffer is silent and a
constant half-amplitude buffer is not. -/
theorem is_silent_spec :
    is_silent none = false
    ∧ (∀ l : List ℤ, is_silent (some l) = true ↔
        (Real.sqrt ((sumSq l : ℝ) / (l.length : ℝ)) < 0.01 ∨ l.length = 0))
    ∧ (∀ n : Nat, 0 < n → is_silent (some (List.replicate n (0 : ℤ))) = true)
    ∧ (∀ n : Nat, 0 < n →
        is_silent (some (List.replicate n (16383 : ℤ))) = false) := by
  refine ⟨rfl, fun l => ?_, fun n hn => ?_, fun n hn => ?_⟩
  · by_cases hl : l.length = 0
    · simp [is_silent, hl]
    · simp only [is_silent, hl, if_false, decide_eq_true_iff, or_false]
      rw [Real.sqrt_lt' (by norm_num : (0 : ℝ) < 0.01)]
      rw [show ((sumSq l : ℝ) / (l.length : ℝ))
          = ((sumSq l / (l.length : ℚ) : ℚ) : ℝ) by push_cast; ring]
      rw [show ((0.01 : ℝ) ^ 2) = (((0.0001 : ℚ) : ℝ)) by norm_num]
      exact (Rat.cast_lt (K := ℝ)).symm
  · rw [is_silent_replicate n 0 (by omega)]
    norm_num
  · rw [is_silent_replicate n 16383 (by omega)]
    norm_num

/-- Witness for C6: four zero samples are silent, four half-amplitude
samples (16383 ≈ 0.5 · 32767) are not. -/
theorem is_silent_spec_witness :
    (0 < 4 ∧ is_silent (some (List.replicate 4 (0 : ℤ))) = true)
    ∧ (0 < 4 ∧ is_silent (some (List.replicate 4 (16383 : ℤ))) = false) :=
  ⟨⟨by decide, is_silent_spec.2.2.1 4 (by decide)⟩,
    ⟨by decide, is_silent_spec.2.2.2 4 (by decide)⟩⟩

/-! ## C4: segment rebuilding after bleed removal -/

/-- The `remaining.is_empty()` branch of the segment rebuild collapses:
joining an empty word list also gives the empty string. -/
theorem rebuildSegment_eq_spec (removed_times : List (ℚ × ℚ))
    (keptWords : List Word) (seg : Segment) :
    rebuildSegment removed_times keptWords seg
      = (if 0 < seg.«end» - seg.start ∧
            (0.8 : ℚ) < ((removed_times.filter fun p =>
                decide (seg.start ≤ p.1) && decide (p.2 ≤ seg.«end»)).map
              fun p => p.2 - p.1).sum / (seg.«end» - seg.start) then
          { seg with text := "" }
        else
          { seg with text := (String.intercalate " "
              ((keptWords.filter fun w =>
                decide (seg.start ≤ w.start) && decide (w.«end» ≤ seg.«end»)).map
                fun w => w.word.trim)) }) := by
  by_cases h : 0 < seg.«end» - seg.start ∧
      (0.8 : ℚ) < ((removed_times.filter fun p =>
          decide (seg.start ≤ p.1) && decide (p.2 ≤ seg.«end»)).map
        fun p => p.2 - p.1).sum / (seg.«end» - seg.start)
  · simp only [rebuildSegment, if_pos h]
  · simp only [rebuildSegment, if_neg h]
    rcases hR : (keptWords.filter fun w =>
        decide (seg.start ≤ w.start) && decide (w.«end» ≤ seg.«end»)).map
          (fun w => w.word.trim) with - | ⟨r, rs⟩
    · rw [hR]
      rfl
    · rw [hR]
      rfl

/-- C4: with both word lists nonempty, the dedup'ed mic segments are the
original segments rewritten — text cleared when the removed words inside the
segment cover more than 80% of a positive duration, rebuilt as the
space-joined trimmed in-range kept words otherwise — with the segments whose
resulting text is empty discarded. -/
theorem dedup_bleed_segment_rebuild (system mic : Transcript)
    (hs : system.words ≠ []) (hm : mic.words ≠ []) :
    (dedup_bleed system mic).segments
      = (mic.segments.map fun seg =>
          if 0 < seg.«end» - seg.start ∧
              (0.8 : ℚ) < (((removedTimesOf mic.words
                    (markRuns (matchMask system mic))).filter fun p =>
                  decide (seg.start ≤ p.1) && decide (p.2 ≤ seg.«end»)).map
                fun p => p.2 - p.1).sum / (seg.«end» - seg.start) then
            { seg with text := "" }
          else
            { seg with text := (String.intercalate " "
                (((filterByMask mic.words
                      (markRuns (matchMask system mic))).filter fun w =>
                    decide (seg.start ≤ w.start) &&
                      decide (w.«end» ≤ seg.«end»)).map
                  fun w => w.word.trim)) }).filter
          fun s => decide (s.text ≠ "") := by
  have hs' : system.words.isEmpty = false := by
    simp [List.isEmpty_iff, hs]
  have hm' : mic.words.isEmpty = false := by
    simp [List.isEmpty_iff, hm]
  unfold dedup_bleed
  rw [hs', hm']
  simp only [Bool.or_self, Bool.false_eq_true, if_false]
  have hmap : rebuildSegment
        (removedTimesOf mic.words (markRuns (matchMask system mic)))
        (filterByMask mic.words (markRuns (matchMask system mic)))
      = fun seg =>
        if 0 < seg.«end» - seg.start ∧
            (0.8 : ℚ) < (((removedTimesOf mic.words
                  (markRuns (matchMask system mic))).filter fun p =>
                decide (seg.start ≤ p.1) && decide (p.2 ≤ seg.«end»)).map
              fun p => p.2 - p.1).sum / (seg.«end» - seg.start) then
          { seg with text := "" }
        else
          { seg with text := (String.intercalate " "
              (((filterByMask mic.words
                    (markRuns (matchMask system mic))).filter fun w =>
                  decide (seg.start ≤ w.start) &&
                    decide (w.«end» ≤ seg.«end»)).map
                fun w => w.word.trim)) } := by
    funext seg
    exact rebuildSegment_eq_spec _ _ seg
  have hpred : (fun s : Segment => !s.text.isEmpty)
      = fun s : Segment => decide (s.text ≠ "") := by
    funext s
    by_cases h : s.text = "" <;>
      simp [h, Bool.eq_false_iff, String.isEmpty_iff]
  rw [hmap, hpred]

/-- Witness for C4 at concrete transcripts whose mic channel is pure bleed:
the hypotheses hold and the segment list obeys the rebuild equation. -/
theorem dedup_bleed_segment_rebuild_witness :
    (sysBleed.words ≠ [] ∧ micBleed.words ≠ []) ∧
    (dedup_bleed sysBleed micBleed).segments
      = (micBleed.segments.map fun seg =>
          if 0 < seg.«end» - seg.start ∧
              (0.8 : ℚ) < (((removedTimesOf micBleed.words
                    (markRuns (matchMask sysBleed micBleed))).filter fun p =>
                  decide (seg.start ≤ p.1) && decide (p.2 ≤ seg.«end»)).map
                fun p => p.2 - p.1).sum / (seg.«end» - seg.start) then
            { seg with text := "" }
          else
            { seg with text := (String.intercalate " "
                (((filterByMask micBleed.words
                      (markRuns (matchMask sysBleed micBleed))).filter fun w =>
                    decide (seg.start ≤ w.start) &&
                      decide (w.«end» ≤ seg.«end»)).map
                  fun w => w.word.trim)) }).filter
          fun s => decide (s.text ≠ "") :=
  ⟨⟨by decide, by decide⟩,
    dedup_bleed_segment_rebuild sysBleed micBleed (by decide) (by decide)⟩

/-! ## C10: `dedup_bleed` early return on empty word lists -/

/-- C10: if either transcript's word list is empty, `dedup_bleed` leaves the
mic transcript completely unchanged — no words removed, no segment text
cleared or rebuilt, no segment discarded — regardless of the segment
texts. -/
theorem dedup_bleed_empty_noop (system mic : Transcript)
    (h : system.words = [] ∨ mic.words = []) :
    dedup_bleed system mic = mic := by
  unfold dedup_bleed
  rcases h with h | h <;> simp [h]

/-- Witness for C10: concrete transcripts with identical segment texts, the
system one without word timings; the mic transcript survives unchanged. -/
theorem dedup_bleed_empty_noop_witness :
    (sysNoWords.words = [] ∨ micEcho.words = []) ∧
      dedup_bleed sysNoWords micEcho = micEcho :=
  ⟨Or.inl rfl, dedup_bleed_empty_noop sysNoWords micEcho (Or.inl rfl)⟩

/-! ## C5: chunker overlap retention -/

/-- C5: after a flush, the retained buffer is exactly the trailing
`overlap_samples` of the pre-flush buffer, where `overlap_samples` is the
clamped overlap `min overlap (chunk_duration − 1)` times rate times
channels; a shorter buffer is retained whole (the length is the minimum of
the two). -/
theorem chunker_overlap_retention (buf : List ℚ)
    (overlap chunk_duration rate channels : Nat) :
    retainOverlap buf (overlapSamples overlap chunk_duration rate channels)
        <:+ buf
    ∧ (retainOverlap buf
          (overlapSamples overlap chunk_duration rate channels)).length
        = min (min overlap (chunk_duration - 1) * rate * channels)
            buf.length := by
  refine ⟨List.drop_suffix _ _, ?_⟩
  simp only [retainOverlap, overlapSamples, clampedOverlap, List.length_drop]
  omega

/-! ## C7: quantization bounds -/

/-- Bounds for the round-toward-zero cast of an in-range value. -/
theorem truncQ_bounds {q : ℚ} (h1 : -32767 ≤ q) (h2 : q ≤ 32767) :
    -32767 ≤ truncQ q ∧ truncQ q ≤ 32767 := by
  unfold truncQ
  split
  · constructor
    · have h0 : (0 : ℤ) ≤ ⌊q⌋ := Int.floor_nonneg.mpr (by assumption)
      omega
    · have := Int.floor_le_floor (α := ℚ) h2
      simpa using this
  · constructor
    · have := Int.ceil_le_ceil (α := ℚ) h1
      simpa using this
    · have hq0 : q ≤ 0 := (lt_of_not_le (by assumption)).le
      have h0 : ⌈q⌉ ≤ 0 := Int.ceil_le.mpr (by exact_mod_cast hq0)
      omega

/-- C7: every sample produced by `f32_to_i16` — the clamp to `[-1, 1]`
followed by multiplication by 32767 and the integer cast — lies in
`[-32767, 32767]`. -/
theorem f32_to_i16_bounds (samples : List ℚ) :
    ∀ x ∈ f32_to_i16 samples, -32767 ≤ x ∧ x ≤ 32767 := by
  intro x hx
  simp only [f32_to_i16, List.mem_map] at hx
  obtain ⟨s, -, rfl⟩ := hx
  have hc1 : -1 ≤ min (max s (-1)) 1 :=
    le_min (le_max_right _ _) (by norm_num)
  have hc2 : min (max s (-1)) 1 ≤ 1 := min_le_right _ _
  refine truncQ_bounds ?_ ?_
  · nlinarith
  · nlinarith

/-- Witness for C7 at a concrete buffer: `2.0` clamps to `1.0` and
quantizes to `32767`, inside the bound. -/
theorem f32_to_i16_bounds_witness :
    (32767 : ℤ) ∈ f32_to_i16 [(2 : ℚ)] ∧
      (-32767 ≤ (32767 : ℤ) ∧ (32767 : ℤ) ≤ 32767) :=
  ⟨by simp [f32_to_i16, truncQ],
    f32_to_i16_bounds [(2 : ℚ)] 32767 (by simp [f32_to_i16, truncQ])⟩

/-! ## C8: peak normalization safety -/

/-- The peak of an all-zero buffer is 0. -/
theorem peakOf_replicate_zero (n : Nat) : peakOf (List.replicate n (0 : ℚ)) = 0 := by
  induction n with
  | zero => rfl
  | succ n ih =>
    simp only [peakOf, List.replicate_succ, List.map_cons, List.foldl_cons,
      abs_zero, max_self] at *
    exact ih

/-- C8: when the peak absolute amplitude is 0, `peak_normalize` returns the
buffer unchanged and performs no division (in particular an all-zero buffer
stays all-zero); when the peak is positive every sample is multiplied by
`target / peak`. -/
theorem peak_normalize_safety :
    (∀ (samples : List ℚ) (target : ℚ), peakOf samples = 0 →
      peak_normalize samples target = samples) ∧
    (∀ (n : Nat) (target : ℚ),
      peak_normalize (List.replicate n (0 : ℚ)) target = List.replicate n 0) ∧
    (∀ (samples : List ℚ) (target : ℚ), 0 < peakOf samples →
      peak_normalize samples target
        = samples.map fun s => s * (target / peakOf samples)) := by
  refine ⟨fun samples target h => ?_, fun n target => ?_, fun samples target h => ?_⟩
  · simp [peak_normalize, h]
  · simp [peak_normalize, peakOf_replicate_zero]
  · simp [peak_normalize, if_pos h]

/-- Witness for C8 on a concrete all-zero buffer. -/
theorem peak_normalize_safety_witness :
    peakOf [(0 : ℚ), 0, 0] = 0 ∧
      peak_normalize [(0 : ℚ), 0, 0] (9 / 10) = [0, 0, 0] :=
  ⟨by decide, peak_normalize_safety.1 [(0 : ℚ), 0, 0] (9 / 10) (by decide)⟩

/-! ## C3: merged transcript ordering and stability -/

/-- Filtering on an exact start value commutes with ordered insertion: the
elements skipped by the insertion have strictly smaller starts, so the
inserted element lands in front of the equal-start class. -/
theorem filter_orderedInsert (a : SpeakerSegment) (l : List SpeakerSegment)
    (q : ℚ) :
    (List.orderedInsert segLE a l).filter (fun s => decide (s.start = q))
      = if a.start = q then a :: l.filter (fun s => decide (s.start = q))
        else l.filter (fun s => decide (s.start = q)) := by
  induction l with
  | nil =>
    by_cases h : a.start = q <;> simp [List.orderedInsert, h]
  | cons b l ih =>
    by_cases hab : segLE a b
    · rw [List.orderedInsert_of_le segLE l hab]
      by_cases h : a.start = q <;> simp [List.filter_cons, h]
    · have hba : b.start < a.start := by
        simpa [segLE, not_le] using hab
      rw [show List.orderedInsert segLE a (b :: l)
          = b :: List.orderedInsert segLE a l from by
        simp [List.orderedInsert, hab]]
      by_cases h : a.start = q
      · have hbq : ¬b.start = q := by
          rw [← h]
          exact ne_of_lt hba
        simp [List.filter_cons, hbq, ih, h]
      · by_cases hb : b.start = q <;> simp [List.filter_cons, hb, ih, h]

/-- Stability of the modelled sort: filtering on any exact start value gives
the same subsequence before and after sorting. -/
theorem filter_insertionSort (l : List SpeakerSegment) (q : ℚ) :
    (List.insertionSort segLE l).filter (fun s => decide (s.start = q))
      = l.filter (fun s => decide (s.start = q)) := by
  induction l with
  | nil => rfl
  | cons b l ih =>
    rw [show List.insertionSort segLE (b :: l)
        = List.orderedInsert segLE b (List.insertionSort segLE l) from rfl]
    rw [filter_orderedInsert]
    by_cases h : b.start = q <;> simp [List.filter_cons, h, ih]

/-- C3: the merged segments are nondecreasing in start time, and for every
start value the segments carrying it appear in insertion order — the
pre-sort concatenation of system segments (in original order) followed by
mic segments. -/
theorem merge_transcripts_sorted_stable (system mic : Option Transcript) :
    (merge_transcripts system mic).segments.Sorted
        (fun a b => a.start ≤ b.start)
    ∧ ∀ q : ℚ, (merge_transcripts system mic).segments.filter
          (fun s => decide (s.start = q))
        = (merge_pre system mic).filter (fun s => decide (s.start = q)) := by
  constructor
  · exact List.sorted_insertionSort segLE (merge_pre system mic)
  · intro q
    exact filter_insertionSort (merge_pre system mic) q

/-! ## C1: bleed-removal run characterization -/

theorem bit_nil (j : Nat) : bit [] j = false := by
  simp [bit]

theorem bit_cons_zero (x : Bool) (l : List Bool) : bit (x :: l) 0 = x := by
  simp [bit]

theorem bit_cons_succ (x : Bool) (l : List Bool) (j : Nat) :
    bit (x :: l) (j + 1) = bit l j := by
  simp [bit]

theorem bit_drop (l : List Bool) (n j : Nat) :
    bit (l.drop n) j = bit l (n + j) := by
  simp [bit, List.getD_eq_getElem?_getD, List.getElem?_drop]

/-- Entry of a replicate-prefixed list below the prefix length. -/
theorem bit_append_replicate_lt (c : Bool) (X : List Bool) {n i : Nat}
    (h : i < n) : bit (List.replicate n c ++ X) i = c := by
  rw [bit, List.getD_eq_getElem?_getD,
    List.getElem?_append_left (by simpa using h), List.getElem?_replicate]
  simp [h]

/-- Entry of a replicate-prefixed list at or beyond the prefix length. -/
theorem bit_append_replicate_ge (c : Bool) (X : List Bool) {n i : Nat}
    (h : n ≤ i) : bit (List.replicate n c ++ X) i = bit X (i - n) := by
  rw [bit, bit, List.getD_eq_getElem?_getD, List.getD_eq_getElem?_getD,
    List.getElem?_append_right (by simpa using h)]
  simp

theorem leadRun_le_length (l : List Bool) : leadRun l ≤ l.length := by
  induction l with
  | nil => simp [leadRun]
  | cons x rest ih =>
    cases x
    · simp [leadRun]
    · simp only [leadRun, List.length_cons]
      omega

theorem bit_lt_leadRun {l : List Bool} {j : Nat} (h : j < leadRun l) :
    bit l j = true := by
  induction l generalizing j with
  | nil => simp [leadRun] at h
  | cons x rest ih =>
    cases x with
    | false => simp [leadRun] at h
    | true =>
      cases j with
      | zero => rw [bit_cons_zero]
      | succ j =>
        rw [bit_cons_succ]
        apply ih
        simp [leadRun] at h
        omega

theorem bit_leadRun (l : List Bool) : bit l (leadRun l) = false := by
  induction l with
  | nil => simp [bit]
  | cons x rest ih =>
    cases x with
    | false => rw [show leadRun (false :: rest) = 0 from rfl, bit_cons_zero]
    | true =>
      rw [show leadRun (true :: rest) = leadRun rest + 1 from rfl,
        bit_cons_succ]
      exact ih

/-- A position in a maximal ≥3-run carries a `true` entry. -/
theorem inMaxRun3_bit {l : List Bool} {i : Nat} (h : inMaxRun3 l i) :
    bit l i = true := by
  obtain ⟨a, b, hai, hib, -, -, hrun, -, -⟩ := h
  exact hrun i hai hib

/-- Inside the leading run, membership in a maximal ≥3-run reduces to the
leading run having length ≥ 3. -/
theorem inMaxRun3_lt_leadRun {l : List Bool} {i : Nat} (hi : i < leadRun l) :
    inMaxRun3 l i ↔ 3 ≤ leadRun l := by
  constructor
  · rintro ⟨a, b, hai, hib, hblen, h3, hrun, hamax, hbmax⟩
    have hble : b ≤ leadRun l := by
      by_contra hbgt
      push_neg at hbgt
      have hc : bit l (leadRun l) = true := hrun (leadRun l) (by omega) hbgt
      rw [bit_leadRun] at hc
      exact Bool.false_ne_true hc
    have ha0 : a = 0 := by
      rcases hamax with h0 | hf
      · exact h0
      · by_contra hne
        have hc : bit l (a - 1) = true := bit_lt_leadRun (by omega)
        rw [hf] at hc
        exact Bool.false_ne_true hc
    omega
  · intro h3
    exact ⟨0, leadRun l, Nat.zero_le i, hi, leadRun_le_length l, by omega,
      fun j hj hjlt => bit_lt_leadRun hjlt, Or.inl rfl,
      Or.inr (bit_leadRun l)⟩

/-- Beyond the leading run, membership in a maximal ≥3-run transfers to the
list with the leading run dropped. -/
theorem inMaxRun3_shift {l : List Bool} {i : Nat} (hi : leadRun l ≤ i) :
    inMaxRun3 l i ↔ inMaxRun3 (l.drop (leadRun l)) (i - leadRun l) := by
  set n := leadRun l with hn
  have hnlen : n ≤ l.length := leadRun_le_length l
  have hlen : (l.drop n).length = l.length - n := by simp
  have hbitn : bit l n = false := by rw [hn]; exact bit_leadRun l
  constructor
  · rintro ⟨a, b, hai, hib, hblen, h3, hrun, hamax, hbmax⟩
    have hna : n < a := by
      by_contra hle
      push_neg at hle
      have hc : bit l n = true := hrun n hle (by omega)
      rw [hbitn] at hc
      exact Bool.false_ne_true hc
    refine ⟨a - n, b - n, by omega, by omega, by omega, by omega, ?_, ?_, ?_⟩
    · intro j hj1 hj2
      rw [bit_drop]
      exact hrun (n + j) (by omega) (by omega)
    · right
      rw [bit_drop]
      rcases hamax with h0 | hf
      · exact absurd h0 (by omega)
      · have he : n + (a - n - 1) = a - 1 := by omega
        rw [he]
        exact hf
    · rcases hbmax with h0 | hf
      · left
        omega
      · right
        rw [bit_drop]
        have he : n + (b - n) = b := by omega
        rw [he]
        exact hf
  · rintro ⟨a, b, hai, hib, hblen, h3, hrun, hamax, hbmax⟩
    have ha1 : 1 ≤ a := by
      by_contra h0
      push_neg at h0
      have hc : bit (l.drop n) 0 = true := hrun 0 (by omega) (by omega)
      rw [bit_drop, Nat.add_zero, hbitn] at hc
      exact Bool.false_ne_true hc
    refine ⟨a + n, b + n, by omega, by omega, by omega, by omega, ?_, ?_, ?_⟩
    · intro j hj1 hj2
      have hj : j = n + (j - n) := by omega
      rw [hj, ← bit_drop]
      exact hrun (j - n) (by omega) (by omega)
    · right
      rcases hamax with h0 | hf
      · exact absurd h0 (by omega)
      · rw [bit_drop] at hf
        have he : a + n - 1 = n + (a - 1) := by omega
        rw [he]
        exact hf
    · rcases hbmax with h0 | hf
      · left
        omega
      · right
        rw [bit_drop] at hf
        have he : b + n = n + b := by omega
        rw [he]
        exact hf

/-- Maximal ≥3-run membership shifts across a leading `false`. -/
theorem inMaxRun3_cons_false (rest : List Bool) (k : Nat) :
    inMaxRun3 (false :: rest) (k + 1) ↔ inMaxRun3 rest k := by
  constructor
  · rintro ⟨a, b, hai, hib, hblen, h3, hrun, hamax, hbmax⟩
    have ha1 : 1 ≤ a := by
      by_contra h0
      push_neg at h0
      have hc : bit (false :: rest) 0 = true := hrun 0 (by omega) (by omega)
      rw [bit_cons_zero] at hc
      exact Bool.false_ne_true hc
    refine ⟨a - 1, b - 1, by omega, by omega, by simp at hblen ⊢; omega,
      by omega, ?_, ?_, ?_⟩
    · intro j hj1 hj2
      rw [show bit rest j = bit (false :: rest) (j + 1) from
        (bit_cons_succ _ _ _).symm]
      exact hrun (j + 1) (by omega) (by omega)
    · rcases hamax with h0 | hf
      · exact absurd h0 (by omega)
      · by_cases ha' : a = 1
        · left
          omega
        · right
          have he : a - 1 - 1 + 1 = a - 1 := by omega
          rw [show bit rest (a - 1 - 1) = bit (false :: rest) (a - 1 - 1 + 1)
            from (bit_cons_succ _ _ _).symm, he]
          exact hf
    · rcases hbmax with h0 | hf
      · left
        simp at h0 ⊢
        omega
      · right
        have he : b - 1 + 1 = b := by omega
        rw [show bit rest (b - 1) = bit (false :: rest) (b - 1 + 1) from
          (bit_cons_succ _ _ _).symm, he]
        exact hf
  · rintro ⟨a, b, hai, hib, hblen, h3, hrun, hamax, hbmax⟩
    refine ⟨a + 1, b + 1, by omega, by omega, by simp; omega, by omega,
      ?_, ?_, ?_⟩
    · intro j hj1 hj2
      have hj : j = (j - 1) + 1 := by omega
      rw [hj, bit_cons_succ]
      exact hrun (j - 1) (by omega) (by omega)
    · right
      rw [show a + 1 - 1 = a from rfl]
      cases a with
      | zero => rw [bit_cons_zero]
      | succ a' =>
        rw [bit_cons_succ]
        rcases hamax with h0 | hf
        · exact absurd h0 (by omega)
        · exact hf
    · rcases hbmax with h0 | hf
      · left
        simp
        omega
      · right
        rw [bit_cons_succ]
        exact hf

theorem markRuns_nil : markRuns [] = [] := by
  rw [markRuns]

theorem markRuns_cons_false (rest : List Bool) :
    markRuns (false :: rest) = false :: markRuns rest := by
  rw [markRuns]

theorem markRuns_cons_true (rest : List Bool) :
    markRuns (true :: rest)
      = List.replicate (leadRun rest + 1) (decide (3 ≤ leadRun rest + 1))
        ++ markRuns (rest.drop (leadRun rest)) := by
  rw [markRuns]

/-- The `to_remove` mask of `dedup_bleed` is `true` at a position exactly
when the position lies in a maximal run of at least 3 consecutive matches. -/
theorem bit_markRuns (l : List Bool) :
    ∀ i, (bit (markRuns l) i = true ↔ inMaxRun3 l i) := by
  induction l using markRuns.induct with
  | case1 =>
    intro i
    rw [markRuns_nil, bit_nil]
    constructor
    · intro h
      exact absurd h (by simp)
    · rintro ⟨a, b, hai, hib, hblen, h3, hrun, hamax, hbmax⟩
      simp at hblen
      exact absurd hib (by omega)
  | case2 rest ih =>
    intro i
    rw [markRuns_cons_false]
    cases i with
    | zero =>
      rw [bit_cons_zero]
      constructor
      · intro h
        exact absurd h (by simp)
      · intro h
        have hc := inMaxRun3_bit h
        rw [bit_cons_zero] at hc
        exact hc
    | succ k =>
      rw [bit_cons_succ, ih k]
      exact (inMaxRun3_cons_false rest k).symm
  | case3 rest ih =>
    intro i
    rw [markRuns_cons_true]
    have hlead : leadRun (true :: rest) = leadRun rest + 1 := rfl
    by_cases hi : i < leadRun rest + 1
    · rw [bit_append_replicate_lt _ _ hi, decide_eq_true_iff]
      rw [inMaxRun3_lt_leadRun (l := true :: rest) (by rw [hlead]; exact hi),
        hlead]
    · push_neg at hi
      rw [bit_append_replicate_ge _ _ hi, ih (i - (leadRun rest + 1))]
      rw [show rest.drop (leadRun rest)
          = (true :: rest).drop (leadRun (true :: rest)) from rfl]
      rw [show i - (leadRun rest + 1) = i - leadRun (true :: rest) from rfl]
      exact (inMaxRun3_shift (l := true :: rest) (by rw [hlead]; omega)).symm

/-- C1: with both word lists nonempty, the mic words kept by `dedup_bleed`
are exactly those whose mask position is not covered by a maximal run of at
least 3 consecutive system-word matches; positions in runs of length 1 or 2
have a `false` mask entry and are kept. -/
theorem dedup_bleed_removal_run_iff (system mic : Transcript)
    (hs : system.words ≠ []) (hm : mic.words ≠ []) :
    (dedup_bleed system mic).words
        = filterByMask mic.words (markRuns (matchMask system mic))
    ∧ ∀ i, (bit (markRuns (matchMask system mic)) i = true
        ↔ inMaxRun3 (matchMask system mic) i) := by
  constructor
  · have hs' : system.words.isEmpty = false := by simp [List.isEmpty_iff, hs]
    have hm' : mic.words.isEmpty = false := by simp [List.isEmpty_iff, hm]
    unfold dedup_bleed
    rw [hs', hm']
    simp
  · exact bit_markRuns (matchMask system mic)

/-- Witness for C1 at the concrete bleed transcripts. -/
theorem dedup_bleed_removal_run_iff_witness :
    (sysBleed.words ≠ [] ∧ micBleed.words ≠ []) ∧
    ((dedup_bleed sysBleed micBleed).words
        = filterByMask micBleed.words (markRuns (matchMask sysBleed micBleed))
      ∧ ∀ i, (bit (markRuns (matchMask sysBleed micBleed)) i = true
          ↔ inMaxRun3 (matchMask sysBleed micBleed) i)) :=
  ⟨⟨by decide, by decide⟩,
    dedup_bleed_removal_run_iff sysBleed micBleed (by decide) (by decide)⟩

/-! ## C9: NaN start times and the sort comparator panic -/

/-- The NaN-aware segment rebuild never changes a segment's start time. -/
theorem rebuildSegmentF_start (removed_times : List (F × F))
    (keptWords : List WordF) (seg : SegmentF) :
    (rebuildSegmentF removed_times keptWords seg).start = seg.start := by
  simp only [rebuildSegmentF]
  split
  · rfl
  · split <;> rfl

/-- Every segment surviving the NaN-aware dedup keeps the start time of
some input mic segment. -/
theorem dedup_bleedF_segments_start (system mic : TranscriptF) :
    ∀ s' ∈ (dedup_bleedF system mic).segments,
      ∃ s ∈ mic.segments, s'.start = s.start := by
  unfold dedup_bleedF
  split
  · intro s' hs'
    exact ⟨s', hs', rfl⟩
  · intro s' hs'
    simp only [List.mem_filter, List.mem_map] at hs'
    obtain ⟨⟨s, hsmem, rfl⟩, -⟩ := hs'
    exact ⟨s, hsmem, rebuildSegmentF_start _ _ s⟩

/-- Speaker segments inherit their start times from the transcript's
segments. -/
theorem to_speaker_segmentsF_start (t : TranscriptF) (sp : String) :
    ∀ x ∈ to_speaker_segmentsF t sp, ∃ s ∈ t.segments, x.start = s.start := by
  intro x hx
  simp only [to_speaker_segmentsF, List.mem_map] at hx
  obtain ⟨s, hsmem, rfl⟩ := hx
  exact ⟨s, hsmem, rfl⟩

/-- The comparator succeeds on two non-NaN start times. -/
theorem cmpSegF_ok {a b : SpeakerSegmentF} (ha : a.start ≠ none)
    (hb : b.start ≠ none) : ∃ o, cmpSegF a b = Except.ok o := by
  obtain ⟨qa, hqa⟩ := Option.ne_none_iff_exists'.mp ha
  obtain ⟨qb, hqb⟩ := Option.ne_none_iff_exists'.mp hb
  exact ⟨compare qa qb, by simp [cmpSegF, fcmp, hqa, hqb]⟩

/-- Fallible ordered insertion succeeds when no consulted start is NaN, and
produces only the inserted element and elements of the input. -/
theorem orderedInsertF_ok (a : SpeakerSegmentF) (l : List SpeakerSegmentF)
    (ha : a.start ≠ none) (hl : ∀ x ∈ l, x.start ≠ none) :
    ∃ r, orderedInsertF a l = Except.ok r ∧ ∀ x ∈ r, x = a ∨ x ∈ l := by
  induction l with
  | nil =>
    refine ⟨[a], rfl, ?_⟩
    intro x hx
    simp at hx
    exact Or.inl hx
  | cons b l ih =>
    have hb : b.start ≠ none := hl b (List.mem_cons_self b l)
    obtain ⟨o, ho⟩ := cmpSegF_ok ha hb
    obtain ⟨r, hr, hrmem⟩ := ih fun x hx => hl x (List.mem_cons_of_mem b hx)
    cases o with
    | gt =>
      refine ⟨b :: r, ?_, ?_⟩
      · rw [show orderedInsertF a (b :: l)
            = match cmpSegF a b with
              | Except.error e => Except.error e
              | Except.ok Ordering.gt =>
                match orderedInsertF a l with
                | Except.error e => Except.error e
                | Except.ok t => Except.ok (b :: t)
              | Except.ok _ => Except.ok (a :: b :: l) from rfl, ho, hr]
      · intro x hx
        rcases List.mem_cons.mp hx with rfl | hx
        · exact Or.inr (List.mem_cons_self x l)
        · rcases hrmem x hx with h | h
          · exact Or.inl h
          · exact Or.inr (List.mem_cons_of_mem b h)
    | lt =>
      refine ⟨a :: b :: l, ?_, ?_⟩
      · rw [show orderedInsertF a (b :: l)
            = match cmpSegF a b with
              | Except.error e => Except.error e
              | Except.ok Ordering.gt =>
                match orderedInsertF a l with
                | Except.error e => Except.error e
                | Except.ok t => Except.ok (b :: t)
              | Except.ok _ => Except.ok (a :: b :: l) from rfl, ho]
      · intro x hx
        rcases List.mem_cons.mp hx with rfl | hx
        · exact Or.inl rfl
        · exact Or.inr hx
    | eq =>
      refine ⟨a :: b :: l, ?_, ?_⟩
      · rw [show orderedInsertF a (b :: l)
            = match cmpSegF a b with
              | Except.error e => Except.error e
              | Except.ok Ordering.gt =>
                match orderedInsertF a l with
                | Except.error e => Except.error e
                | Except.ok t => Except.ok (b :: t)
              | Except.ok _ => Except.ok (a :: b :: l) from rfl, ho]
      · intro x hx
        rcases List.mem_cons.mp hx with rfl | hx
        · exact Or.inl rfl
        · exact Or.inr hx

/-- The fallible sort succeeds when no start is NaN, and permutes within
the input elements. -/
theorem insertionSortF_ok (l : List SpeakerSegmentF)
    (hl : ∀ x ∈ l, x.start ≠ none) :
    ∃ r, insertionSortF l = Except.ok r ∧ ∀ x ∈ r, x ∈ l := by
  induction l with
  | nil => exact ⟨[], rfl, by simp⟩
  | cons b l ih =>
    obtain ⟨s, hs, hsub⟩ := ih fun x hx => hl x (List.mem_cons_of_mem b hx)
    have hsnn : ∀ x ∈ s, x.start ≠ none := fun x hx =>
      hl x (List.mem_cons_of_mem b (hsub x hx))
    obtain ⟨r, hr, hrmem⟩ := orderedInsertF_ok b s
      (hl b (List.mem_cons_self b l)) hsnn
    refine ⟨r, ?_, ?_⟩
    · rw [show insertionSortF (b :: l)
          = match insertionSortF l with
            | Except.error e => Except.error e
            | Except.ok s => orderedInsertF b s from rfl, hs]
      exact hr
    · intro x hx
      rcases hrmem x hx with rfl | hx'
      · exact List.mem_cons_self x l
      · exact List.mem_cons_of_mem b (hsub x hx')

/-- C9: the modelled `merge_transcripts` — whose sort comparator is
`partial_cmp(..).unwrap()` on start times — returns normally on every input
whose segment start times are all non-NaN, and panics (modelled
`Except.error ()`) on an input containing a NaN segment start, so the merge
guarantee holds only under the no-NaN precondition. -/
theorem merge_transcriptsF_nan_behavior :
    (∀ system mic : Option TranscriptF,
      (∀ t, system = some t → ∀ s ∈ t.segments, s.start ≠ none) →
      (∀ t, mic = some t → ∀ s ∈ t.segments, s.start ≠ none) →
      ∃ r, merge_transcriptsF system mic = Except.ok r)
    ∧ ((∃ s ∈ nanSys.segments, s.start = none)
        ∧ merge_transcriptsF (some nanSys) none = Except.error ()) := by
  constructor
  · intro system mic hsys hmic
    have hpre : ∀ x ∈ merge_preF system mic, x.start ≠ none := by
      intro x hx
      rcases List.mem_append.mp hx with hx | hx
      · rcases system with - | sys
        · simp at hx
        · simp only [Option.map_some', Option.getD_some] at hx
          obtain ⟨s, hsmem, hse⟩ := to_speaker_segmentsF_start sys "other" x hx
          rw [hse]
          exact hsys sys rfl s hsmem
      · rcases system with - | sys <;> rcases mic with - | m
        · simp [merge_preF] at hx
        · simp only [Option.map_some', Option.getD_some] at hx
          obtain ⟨s, hsmem, hse⟩ := to_speaker_segmentsF_start m "you" x hx
          rw [hse]
          exact hmic m rfl s hsmem
        · simp [merge_preF] at hx
        · simp only [Option.map_some', Option.getD_some] at hx
          obtain ⟨s', hs'mem, hse⟩ :=
            to_speaker_segmentsF_start (dedup_bleedF sys m) "you" x hx
          obtain ⟨s, hsmem, hse'⟩ := dedup_bleedF_segments_start sys m s' hs'mem
          rw [hse, hse']
          exact hmic m rfl s hsmem
    obtain ⟨r, hr, -⟩ := insertionSortF_ok (merge_preF system mic) hpre
    refine ⟨⟨r, fmax ((system.map TranscriptF.duration).getD (some 0))
      ((mic.map TranscriptF.duration).getD (some 0))⟩, ?_⟩
    unfold merge_transcriptsF
    rw [hr]
  · exact ⟨⟨{ start := none, «end» := some 1, text := "a", words := [] },
      by simp [nanSys], rfl⟩, rfl⟩

/-- Witness for C9's universal half at a concrete NaN-free input. -/
theorem merge_transcriptsF_nan_behavior_witness :
    (∀ t, (some okSys = some t) → ∀ s ∈ t.segments, s.start ≠ none)
    ∧ (∃ r, merge_transcriptsF (some okSys) none = Except.ok r) :=
  ⟨fun t ht => by cases ht; decide,
    merge_transcriptsF_nan_behavior.1 (some okSys) none
      (fun t ht => by cases ht; decide)
      (fun t ht => Option.noConfusion ht)⟩

end Scribe
